/-
Verification of the slopCannon clip-suggestion and export engine.

Shallow embedding of:
  * slopcannon/managers/clip_manager.py   (ClipManager)
  * slopcannon/managers/analysis_manager.py (suggest_clips: scoring, windowing, selection)
  * slopcannon/utils/error_handling.py    (RetryConfig.get_delay)
  * slopcannon/utils/subtitle_generator.py (generate_subtitles word flattening/chunking)
  * slopcannon/utils/ffmpeg_wrapper.py    (export_clip worker outcome discipline)

Machine floats of the Python source are modelled as exact rationals; Python
millisecond positions are modelled as integers.
-/
import Mathlib

namespace SlopCannon

/-! ## Clip store (slopcannon/managers/clip_manager.py)

`ClipManager` keeps `clips : list[(start_ms, end_ms, score)]` and
`current_start : int | None`.  Operations that `raise ValueError` are
modelled with `Except String`; an error leaves the state with the caller
unchanged. -/

/-- A clip record `(start_ms, end_ms, score)` as stored by `ClipManager`. -/
abbrev Clip := ℤ × ℤ × ℚ

/-- The mutable state of `ClipManager`: the clip list and the pending mark. -/
structure ClipState where
  clips : List Clip
  currentStart : Option ℤ
  deriving Repr, DecidableEq

/-- `ClipManager.__init__`: empty clip list, no pending start. -/
def initClipState : ClipState := ⟨[], none⟩

/-- `ClipManager.mark_start(position_ms)`: unconditionally records the pending start. -/
def mark_start (st : ClipState) (positionMs : ℤ) : ClipState :=
  { st with currentStart := some positionMs }

/-- `ClipManager.mark_end(position_ms, score)`: fails if no pending start or
`position_ms <= current_start`; otherwise appends the clip and clears the
pending start. -/
def mark_end (st : ClipState) (positionMs : ℤ) (score : ℚ) : Except String ClipState :=
  match st.currentStart with
  | none => .error "Start not set before end"
  | some s =>
    if positionMs ≤ s then .error "End must be after start"
    else .ok ⟨st.clips ++ [(s, positionMs, score)], none⟩

/-- `ClipManager.add_clip(start_ms, end_ms, score)`: appends only when
`end_ms > start_ms`, silently ignoring invalid ranges. -/
def add_clip (st : ClipState) (startMs endMs : ℤ) (score : ℚ) : ClipState :=
  if endMs > startMs then { st with clips := st.clips ++ [(startMs, endMs, score)] }
  else st

/-- `ClipManager.clear_clips()`. -/
def clear_clips (_st : ClipState) : ClipState := ⟨[], none⟩

/-- `ClipManager.remove_clip(index)`: deletes when `0 <= index < len(clips)`,
otherwise a no-op. -/
def remove_clip (st : ClipState) (index : ℕ) : ClipState :=
  if index < st.clips.length then { st with clips := st.clips.eraseIdx index }
  else st

/-- `ClipManager.update_clip(index, start_ms, end_ms, score)`: on a valid index,
defaults omitted fields from the existing clip, fails when the resulting
`end <= start`, otherwise replaces the clip in place; out-of-range index is a
no-op. -/
def update_clip (st : ClipState) (index : ℕ)
    (startMs? endMs? : Option ℤ) (score? : Option ℚ) : Except String ClipState :=
  if h : index < st.clips.length then
    let c := st.clips.get ⟨index, h⟩
    let s := startMs?.getD c.1
    let e := endMs?.getD c.2.1
    let sc := score?.getD c.2.2
    if e ≤ s then .error "End must be after start"
    else .ok { st with clips := st.clips.set index (s, e, sc) }
  else .ok st

/-- One Clip Store operation, as issued by a caller. -/
inductive ClipOp
  | markStart (positionMs : ℤ)
  | markEnd (positionMs : ℤ) (score : ℚ)
  | addClip (startMs endMs : ℤ) (score : ℚ)
  | removeClip (index : ℕ)
  | updateClip (index : ℕ) (startMs? endMs? : Option ℤ) (score? : Option ℚ)
  | clear

/-- Apply one operation; a raised `ValueError` aborts before any mutation, so
the state is kept as-is on error. -/
def applyOp (st : ClipState) (op : ClipOp) : ClipState :=
  match op with
  | .markStart p => mark_start st p
  | .markEnd p sc =>
    match mark_end st p sc with
    | .ok st2 => st2
    | .error _ => st
  | .addClip s e sc => add_clip st s e sc
  | .removeClip i => remove_clip st i
  | .updateClip i s? e? sc? =>
    match update_clip st i s? e? sc? with
    | .ok st2 => st2
    | .error _ => st
  | .clear => clear_clips st

/-- Run a sequence of operations from the freshly constructed store. -/
def runOps (ops : List ClipOp) : ClipState :=
  ops.foldl applyOp initClipState

/-- Every stored clip has `end_ms > start_ms`. -/
def clipsValid (st : ClipState) : Prop := ∀ c ∈ st.clips, c.1 < c.2.1

instance (st : ClipState) : Decidable (clipsValid st) := by
  unfold clipsValid; infer_instance

lemma clipsValid_init : clipsValid initClipState := by
  intro c hc; simp [initClipState] at hc

lemma clipsValid_applyOp {st : ClipState} (h : clipsValid st) (op : ClipOp) :
    clipsValid (applyOp st op) := by
  cases op with
  | markStart p =>
    intro c hc; exact h c hc
  | markEnd p sc =>
    simp only [applyOp, mark_end]
    cases hcs : st.currentStart with
    | none => exact h
    | some s =>
      by_cases hle : p ≤ s
      · simp only [hle, if_pos]; exact h
      · simp only [hle, if_neg, not_false_iff]
        intro c hc
        rcases List.mem_append.1 hc with hmem | hmem
        · exact h c hmem
        · simp at hmem; subst hmem; simpa using lt_of_not_ge hle
  | addClip s e sc =>
    simp only [applyOp, add_clip]
    by_cases hgt : e > s
    · simp only [hgt, if_pos]
      intro c hc
      rcases List.mem_append.1 hc with hmem | hmem
      · exact h c hmem
      · simp at hmem; subst hmem; simpa using hgt
    · simp only [hgt, if_neg, not_false_iff]; exact h
  | removeClip i =>
    simp only [applyOp, remove_clip]
    by_cases hi : i < st.clips.length
    · simp only [hi, if_pos]
      intro c hc
      exact h c (List.mem_of_mem_eraseIdx hc)
    · simp only [hi, if_neg, not_false_iff]; exact h
  | updateClip i s? e? sc? =>
    simp only [applyOp, update_clip]
    by_cases hi : i < st.clips.length
    · simp only [hi, dif_pos]
      set c0 := st.clips.get ⟨i, hi⟩ with hc0
      by_cases hle : e?.getD c0.2.1 ≤ s?.getD c0.1
      · simp only [hle, if_pos]; exact h
      · simp only [hle, if_neg, not_false_iff]
        intro c hc
        rcases List.mem_or_eq_of_mem_set hc with hmem | rfl
        · exact h c hmem
        · simpa using lt_of_not_ge hle
    · simp only [hi, dif_neg, not_false_iff]; exact h
  | clear =>
    intro c hc; simp [applyOp, clear_clips] at hc

/-! ## Retry policy (slopcannon/utils/error_handling.py)

`RetryConfig.get_delay(attempt)` computes
`min(initial_delay * exponential_base ** attempt, max_delay)` and, when
`jitter` is on, multiplies by `0.5 + random.random()`.  The random draw
`random.random() ∈ [0,1)` is made an explicit parameter `r`. -/

/-- `RetryConfig` fields (the attempt budget is unused by `get_delay`). -/
structure RetryConfig where
  maxAttempts : ℕ
  initialDelay : ℚ
  maxDelay : ℚ
  exponentialBase : ℚ
  jitter : Bool
  deriving Repr, DecidableEq

/-- `RetryConfig.get_delay(attempt)` with the random draw `r` explicit. -/
def get_delay (c : RetryConfig) (attempt : ℕ) (r : ℚ) : ℚ :=
  let delay := min (c.initialDelay * c.exponentialBase ^ attempt) c.maxDelay
  if c.jitter then delay * (1/2 + r) else delay

/-! ## Window scoring (slopcannon/managers/analysis_manager.py, suggest_clips)

Per-window fused score over the audio feature arrays.  The source first
min-max normalizes each audio array (`normalize`), slices the window's sample
range `[i0, i1)`, takes means, and fuses with fixed weights plus a silence
penalty keyed on the mean of the *normalized* RMS. -/

/-- `np.min` over a nonempty list (0 on the empty list, never hit by the source). -/
def listMin : List ℚ → ℚ
  | [] => 0
  | x :: xs => xs.foldl min x

/-- `np.max` over a nonempty list (0 on the empty list, never hit by the source). -/
def listMax : List ℚ → ℚ
  | [] => 0
  | x :: xs => xs.foldl max x

/-- `np.ptp`: peak-to-peak range. -/
def listPtp (l : List ℚ) : ℚ := listMax l - listMin l

/-- `normalize(arr) = (arr - np.min(arr)) / (np.ptp(arr) + 1e-6)`. -/
def normalize (arr : List ℚ) : List ℚ :=
  arr.map fun x => (x - listMin arr) / (listPtp arr + 1/1000000)

/-- `np.mean` (0 on the empty list; `np.mean` of an empty slice is NaN,
never hit by the claims' inputs). -/
def meanQ (l : List ℚ) : ℚ := l.sum / l.length

/-- Python slice `l[i0:i1]`. -/
def sliceQ (l : List ℚ) (i0 i1 : ℕ) : List ℚ := (l.drop i0).take (i1 - i0)

/-- `np.abs(np.diff(rms, prepend=rms[0]))`: absolute difference from the
previous frame, first frame seeded with itself. -/
def rmsDiff (rms : List ℚ) : List ℚ :=
  match rms with
  | [] => []
  | r0 :: _ => List.zipWith (fun a b => |a - b|) rms (r0 :: rms)

/-- One window's fused score as computed in `suggest_clips`
(lines 153–181): normalize the audio arrays, take the window means over the
sample range `[i0, i1)`, add the global `mfcc_var_n`/`beat_density_n` scalars,
the visual scores for this window, and the silence penalty
`0.0 if mean_rms > 0.02 else -0.2` where `mean_rms` is the mean of the
*normalized* RMS slice. -/
def windowScore (rms zcr specCent specBw : List ℚ)
    (mfccVarN beatDensityN sceneScore motionScore : ℚ) (i0 i1 : ℕ) : ℚ :=
  let rms_n := normalize rms
  let zcr_n := normalize zcr
  let spec_cent_n := normalize specCent
  let spec_bw_n := normalize specBw
  let rms_diff_n := normalize (rmsDiff rms)
  let mean_rms := meanQ (sliceQ rms_n i0 i1)
  let mean_zcr := meanQ (sliceQ zcr_n i0 i1)
  let mean_spec_cent := meanQ (sliceQ spec_cent_n i0 i1)
  let mean_spec_bw := meanQ (sliceQ spec_bw_n i0 i1)
  let mean_rms_diff := meanQ (sliceQ rms_diff_n i0 i1)
  let silence_penalty := if mean_rms > 2/100 then 0 else -(2/10)
  20/100 * mean_rms +
  10/100 * mean_zcr +
  10/100 * mean_spec_cent +
  10/100 * mean_spec_bw +
  10/100 * mfccVarN +
  5/100 * beatDensityN +
  10/100 * mean_rms_diff +
  15/100 * sceneScore +
  10/100 * motionScore +
  silence_penalty

/-- The fused score as the claim states it (for the refinement comparison):
identical weighted fusion, but `silencePenalty = -0.2` exactly when the mean
*raw (pre-normalization)* loudness over the window is strictly below 0.02. -/
def windowScoreSpec (rms zcr specCent specBw : List ℚ)
    (mfccVarN beatDensityN sceneScore motionScore : ℚ) (i0 i1 : ℕ) : ℚ :=
  let rms_n := normalize rms
  let zcr_n := normalize zcr
  let spec_cent_n := normalize specCent
  let spec_bw_n := normalize specBw
  let rms_diff_n := normalize (rmsDiff rms)
  let mean_rms := meanQ (sliceQ rms_n i0 i1)
  let mean_zcr := meanQ (sliceQ zcr_n i0 i1)
  let mean_spec_cent := meanQ (sliceQ spec_cent_n i0 i1)
  let mean_spec_bw := meanQ (sliceQ spec_bw_n i0 i1)
  let mean_rms_diff := meanQ (sliceQ rms_diff_n i0 i1)
  let mean_raw_rms := meanQ (sliceQ rms i0 i1)
  let silence_penalty := if mean_raw_rms < 2/100 then -(2/10) else 0
  20/100 * mean_rms +
  10/100 * mean_zcr +
  10/100 * mean_spec_cent +
  10/100 * mean_spec_bw +
  10/100 * mfccVarN +
  5/100 * beatDensityN +
  10/100 * mean_rms_diff +
  15/100 * sceneScore +
  10/100 * motionScore +
  silence_penalty

/-! ## Window enumeration and greedy selection (suggest_clips, lines 152–203)

Starts come from `np.arange(0, duration - window_sec, stride_sec)`; with exact
arithmetic and a positive stride this is `k * stride` for
`k < ⌈(duration - window_sec) / stride⌉`.  Selection sorts the scored windows
by score descending (Python's stable sort) and greedily accepts a window
unless `not (end <= u_start - tol or start >= u_end + tol)` holds against some
already accepted interval, where `tol = allowed_overlap_sec * 1000`. -/

/-- A scored window `(start_ms, end_ms, score)`. -/
abbrev ScoredWindow := ℤ × ℤ × ℚ

/-- Number of values of `np.arange(0, duration - window_sec, stride_sec)`. -/
def numWindows (duration windowSec strideSec : ℚ) : ℕ :=
  (⌈(duration - windowSec) / strideSec⌉).toNat

/-- The enumerated window start times (seconds). -/
def windowStarts (duration windowSec strideSec : ℚ) : List ℚ :=
  (List.range (numWindows duration windowSec strideSec)).map
    fun k : ℕ => (k : ℚ) * strideSec

/-- The source's conflict test for a candidate `w` against a used interval `u`:
`not (end_ms <= u_start - tol or start_ms >= u_end + tol)`. -/
def conflictB (tolMs : ℤ) (w u : ScoredWindow) : Bool :=
  !(decide (w.2.1 ≤ u.1 - tolMs) || decide (w.1 ≥ u.2.1 + tolMs))

/-- The greedy acceptance loop of `suggest_clips` (lines 189–200): walk the
sorted candidates, skip a candidate that conflicts with an accepted one,
append otherwise, and stop as soon as the accepted list reaches `max_clips`
(the stop test runs after each candidate, accepted or not). -/
def pickClips (tolMs : ℤ) (maxClips : ℕ) :
    List ScoredWindow → List ScoredWindow → List ScoredWindow
  | [], top => top
  | w :: ws, top =>
    let overlap := top.any (conflictB tolMs w)
    let top2 := if overlap then top else top ++ [w]
    if maxClips ≤ top2.length then top2 else pickClips tolMs maxClips ws top2

/-- The selection phase of `suggest_clips`: stable sort by score descending,
then the greedy loop starting from an empty accepted list. -/
def selectTop (windows : List ScoredWindow) (maxClips : ℕ) (tolMs : ℤ) :
    List ScoredWindow :=
  pickClips tolMs maxClips (windows.mergeSort fun a b => decide (b.2.2 ≤ a.2.2)) []

/-- Two windows are tolerance-separated: one ends at least `tol` before the
other starts. This is the negation of the source's conflict test. -/
def SepTol (tolMs : ℤ) (a b : ScoredWindow) : Prop :=
  a.2.1 ≤ b.1 - tolMs ∨ a.1 ≥ b.2.1 + tolMs

instance (tolMs : ℤ) (a b : ScoredWindow) : Decidable (SepTol tolMs a b) := by
  unfold SepTol; infer_instance

/-! ## Subtitle word flattening and chunking
(slopcannon/utils/subtitle_generator.py, generate_subtitles lines 77–108) -/

/-- A transcribed word `(start, end, text)`; `end` is called `stop` because
`end` is reserved. -/
structure TWord where
  start : ℚ
  stop : ℚ
  text : String
  deriving Repr, DecidableEq

/-- A transcript segment; `words = []` models a segment lacking word-level
timestamps (`seg.words` falsy in the source). -/
structure TSegment where
  start : ℚ
  stop : ℚ
  text : String
  words : List TWord
  deriving Repr, DecidableEq

/-- The word-flattening loop: extend with `seg.words` when present, else
append one synthesized pseudo-word carrying the segment's start, end, text. -/
def flatten_words (segs : List TSegment) : List TWord :=
  (segs.map fun seg =>
    match seg.words with
    | [] => [⟨seg.start, seg.stop, seg.text⟩]
    | ws => ws).flatten

/-- `[l[i:i+n] for i in range(0, len(l), n)]` for `n > 0` (the source raises
on `n = 0`; we return `[]`, unused by the theorems). -/
def chunkList {α : Type} (n : ℕ) (l : List α) : List (List α) :=
  match l with
  | [] => []
  | x :: xs =>
    if n = 0 then []
    else (x :: xs).take n :: chunkList n ((x :: xs).drop n)
termination_by l.length
decreasing_by
  simp only [List.length_drop, List.length_cons]
  omega

/-- The displayed time span of each emitted event: `(chunk[0].start,
chunk[-1].end)` per chunk of `words_per_line * lines_per_event` words
(timestamp formatting omitted; chunks are never empty so the `getD 0`
defaults are never taken). -/
def subtitle_events (wordsPerLine linesPerEvent : ℕ) (segs : List TSegment) :
    List (ℚ × ℚ) :=
  (chunkList (wordsPerLine * linesPerEvent) (flatten_words segs)).map fun chunk =>
    ((chunk.head?.map TWord.start).getD 0, (chunk.getLast?.map TWord.stop).getD 0)

/-! ## Export job outcome discipline
(slopcannon/utils/ffmpeg_wrapper.py, export_clip lines 74–161)

The worker body runs the base cut and, when subtitles are requested, audio
extraction, transcription/subtitle synthesis and burn-in, each an
external-tool invocation that may fail (after its own retries).  The whole
body sits in one `try`; `except Exception` reports `(None, e)` through the
callback.  The external invocations' outcomes form the environment. -/

/-- Rendering options of one export request. -/
structure ExportOpts where
  portrait : Bool
  overlay : Bool
  subtitles : Bool
  deriving Repr, DecidableEq

/-- Outcomes of the external-tool invocations the worker may perform
(each already wrapped in its own retry budget by `run_cmd`). -/
structure ExportEnv where
  baseCut : Except String Unit
  audioExtract : Except String Unit
  makeSubtitles : Except String Unit
  burnIn : Except String Unit

/-- `Path.stem`: the name without its last suffix — the characters up to the
last dot when one occurs, the whole name otherwise. -/
def stemOf (f : String) : String :=
  let cs := f.toList
  if '.' ∈ cs then String.mk (((cs.reverse.dropWhile (· ≠ '.')).drop 1).reverse)
  else f

/-- `final_file.with_name(f"{final_file.stem}_sub.mp4")`. -/
def subName (f : String) : String := stemOf f ++ "_sub.mp4"

/-- The worker body inside the `try`: base cut, then the subtitle stages when
requested, each aborting the body on failure exactly as a raised exception
does; returns the final artifact path.  Intermediate-file deletion is wrapped
in its own inner `try/except` in the source and cannot fail, so it is
omitted. -/
def exportBody (env : ExportEnv) (outputFile : String) (opts : ExportOpts) :
    Except String String :=
  match env.baseCut with
  | .error e => .error e
  | .ok _ =>
    if opts.subtitles then
      match env.audioExtract with
      | .error e => .error e
      | .ok _ =>
        match env.makeSubtitles with
        | .error e => .error e
        | .ok _ =>
          match env.burnIn with
          | .error e => .error e
          | .ok _ => .ok (subName outputFile)
    else .ok outputFile

/-- The worker with its `except Exception` boundary: success calls
`callback(final_file)`, failure calls `callback(None, e)`.  The returned pair
is the single callback invocation `(artifactPath | none, error | none)`. -/
def export_clip_worker (env : ExportEnv) (outputFile : String) (opts : ExportOpts) :
    Option String × Option String :=
  match exportBody env outputFile opts with
  | .ok p => (some p, none)
  | .error e => (none, some e)

/-! ## Theorems -/

/-- C7: After every sequence of Clip Store operations (markStart, markEnd,
addClip, removeClip, updateClip, clear), every clip held in the store
satisfies `end_ms > start_ms`. -/
theorem clip_store_invariant (ops : List ClipOp) : clipsValid (runOps ops) := by
  suffices h : ∀ st, clipsValid st → clipsValid (ops.foldl applyOp st) from
    h initClipState clipsValid_init
  induction ops with
  | nil => intro st h; exact h
  | cons op ops ih => intro st h; exact ih _ (clipsValid_applyOp h op)

/-- C6: `addClip(start, end)` with `end <= start` leaves the store unchanged
without raising, while `updateClip` on a valid index whose resulting interval
has `end <= start` raises a validation error (so the existing clip at that
index stays as it was). -/
theorem clip_validation_asymmetry (st : ClipState) (s e : ℤ) (sc : ℚ)
    (hse : e ≤ s) (i : ℕ) (hi : i < st.clips.length)
    (s? e? : Option ℤ) (sc? : Option ℚ)
    (hres : e?.getD (st.clips.get ⟨i, hi⟩).2.1 ≤ s?.getD (st.clips.get ⟨i, hi⟩).1) :
    add_clip st s e sc = st ∧
    update_clip st i s? e? sc? = .error "End must be after start" := by
  constructor
  · unfold add_clip
    rw [if_neg (not_lt.2 hse)]
  · unfold update_clip
    rw [dif_pos hi, if_pos hres]

/-- Witness for `clip_validation_asymmetry` at a one-clip store and the
spec's example range `(1000, 500)`. -/
theorem clip_validation_asymmetry_witness :
    add_clip ⟨[((0 : ℤ), 500, 1)], none⟩ 1000 500 1 = ⟨[((0 : ℤ), 500, 1)], none⟩ ∧
    update_clip ⟨[((0 : ℤ), 500, 1)], none⟩ 0 (some 1000) (some 500) none =
      .error "End must be after start" :=
  clip_validation_asymmetry ⟨[((0 : ℤ), 500, 1)], none⟩ 1000 500 1 (by decide)
    0 (by decide) (some 1000) (some 500) none (by decide)

/-- C10: a successful `markEnd` appends the clip and clears the pending
start, so a second `markEnd` with no intervening `markStart` fails with a
validation error; `markStart` unconditionally overwrites any pending start. -/
theorem mark_end_consumes_start (st : ClipState) (s pos : ℤ) (sc : ℚ)
    (hs : st.currentStart = some s) (hlt : s < pos) :
    mark_end st pos sc = .ok ⟨st.clips ++ [(s, pos, sc)], none⟩ ∧
    (∀ (pos2 : ℤ) (sc2 : ℚ),
      mark_end ⟨st.clips ++ [(s, pos, sc)], none⟩ pos2 sc2 =
        .error "Start not set before end") ∧
    (∀ (st2 : ClipState) (p : ℤ),
      mark_start st2 p = { st2 with currentStart := some p }) := by
  refine ⟨?_, fun pos2 sc2 => rfl, fun st2 p => rfl⟩
  unfold mark_end
  rw [hs]
  simp only [not_le.2 hlt, if_neg, not_false_iff]

/-- Witness for `mark_end_consumes_start` at a store with pending start 100
and `markEnd(200)`. -/
theorem mark_end_consumes_start_witness :
    mark_end ⟨[], some 100⟩ 200 1 = .ok ⟨[] ++ [((100 : ℤ), 200, (1 : ℚ))], none⟩ ∧
    (∀ (pos2 : ℤ) (sc2 : ℚ),
      mark_end ⟨[] ++ [((100 : ℤ), 200, (1 : ℚ))], none⟩ pos2 sc2 =
        .error "Start not set before end") ∧
    (∀ (st2 : ClipState) (p : ℤ),
      mark_start st2 p = { st2 with currentStart := some p }) :=
  mark_end_consumes_start ⟨[], some 100⟩ 100 200 1 rfl (by decide)

/-- C4: with jitter off the delay for attempt `n` is
`min(initial_delay * exponential_base ^ n, max_delay)`; for
`(initial_delay=1, base=2, max_delay=30, jitter=off)` the sequence is
`1, 2, 4, 8, 16, 30, …`; with jitter on the capped base delay is scaled by
`0.5 + r` for the uniform draw `r ∈ [0,1)`, a multiplier in `[0.5, 1.5)`. -/
theorem retry_delay_formula (c : RetryConfig) (n : ℕ) (r : ℚ)
    (h0 : 0 ≤ r) (h1 : r < 1) :
    (c.jitter = false →
      get_delay c n r = min (c.initialDelay * c.exponentialBase ^ n) c.maxDelay) ∧
    ((List.range 6).map fun k => get_delay ⟨3, 1, 30, 2, false⟩ k 0) =
      [1, 2, 4, 8, 16, 30] ∧
    (c.jitter = true →
      get_delay c n r =
        min (c.initialDelay * c.exponentialBase ^ n) c.maxDelay * (1/2 + r) ∧
      1/2 ≤ 1/2 + r ∧ 1/2 + r < 3/2) := by
  refine ⟨fun hj => by simp [get_delay, hj], ?_,
    fun hj => ⟨by simp [get_delay, hj], by linarith, by linarith⟩⟩
  norm_num [get_delay, List.range_succ]

/-- Witness for `retry_delay_formula` at jitter on, attempt 0, draw 1/2. -/
theorem retry_delay_formula_witness :
    get_delay ⟨3, 1, 30, 2, true⟩ 0 (1/2) =
      min ((1 : ℚ) * 2 ^ 0) 30 * (1/2 + 1/2) :=
  ((retry_delay_formula ⟨3, 1, 30, 2, true⟩ 0 (1/2) (by norm_num) (by norm_num)).2.2 rfl).1

/-- C9: with jitter on there are an attempt and a draw whose delay strictly
exceeds `max_delay` (the cap precedes the jitter multiplier), and every
jittered delay stays below `1.5 * max_delay`. -/
theorem jitter_exceeds_cap :
    (∃ (n : ℕ) (r : ℚ), 0 ≤ r ∧ r < 1 ∧
      (⟨3, 1, 30, 2, true⟩ : RetryConfig).maxDelay <
        get_delay ⟨3, 1, 30, 2, true⟩ n r) ∧
    (∀ (n : ℕ) (r : ℚ), 0 ≤ r → r < 1 →
      get_delay ⟨3, 1, 30, 2, true⟩ n r <
        3/2 * (⟨3, 1, 30, 2, true⟩ : RetryConfig).maxDelay) := by
  constructor
  · refine ⟨10, 9/10, by norm_num, by norm_num, ?_⟩
    norm_num [get_delay]
  · intro n r h0 h1
    have hmin : min ((1 : ℚ) * 2 ^ n) 30 ≤ 30 := min_le_right _ _
    have hnn : (0 : ℚ) ≤ min ((1 : ℚ) * 2 ^ n) 30 :=
      le_min (by positivity) (by norm_num)
    show min ((1 : ℚ) * 2 ^ n) 30 * (1/2 + r) < 3/2 * 30
    nlinarith [hmin, hnn]

/-- Witness for the universal bound in `jitter_exceeds_cap` at attempt 0,
draw 1/2. -/
theorem jitter_exceeds_cap_witness :
    get_delay ⟨3, 1, 30, 2, true⟩ 0 (1/2) <
      3/2 * (⟨3, 1, 30, 2, true⟩ : RetryConfig).maxDelay :=
  jitter_exceeds_cap.2 0 (1/2) (by norm_num) (by norm_num)

/-- C1 fails as stated: the silence penalty is keyed on the mean of the
*normalized* loudness (and fires at `mean <= 0.02`, not strictly below).
Concrete window: raw RMS `[0, 0.01]` over the whole range has raw mean
`0.005 < 0.02` (the claim's penalty fires) but normalized mean
`≈ 0.49995 > 0.02` (the code's does not), so the code's score differs from
the claim's formula by 0.2. -/
theorem score_penalty_counterexample :
    meanQ (sliceQ [0, 1/100] 0 2) < 2/100 ∧
    2/100 < meanQ (sliceQ (SlopCannon.normalize [0, 1/100]) 0 2) ∧
    windowScore [0, 1/100] [0, 1/100] [0, 1/100] [0, 1/100] 0 0 0 0 0 2 ≠
      windowScoreSpec [0, 1/100] [0, 1/100] [0, 1/100] [0, 1/100] 0 0 0 0 0 2 := by
  refine ⟨by norm_num [meanQ, sliceQ], ?_, ?_⟩ <;>
    norm_num [windowScore, windowScoreSpec, SlopCannon.normalize,
      listMin, listMax, listPtp, meanQ, sliceQ, rmsDiff]

/-- C1 amended: for every window the fused score equals
`0.20·loudness + 0.10·zcr + 0.10·centroid + 0.10·bandwidth + 0.10·timbreVar
+ 0.05·beatDensity + 0.10·loudnessDelta + 0.15·sceneChange + 0.10·motion
+ silencePenalty`, where `silencePenalty = -0.2` exactly when the mean
*normalized* loudness over the window is at most 0.02, else 0. -/
theorem score_fusion_amended (rms zcr specCent specBw : List ℚ)
    (mfccVarN beatDensityN sceneScore motionScore : ℚ) (i0 i1 : ℕ) :
    windowScore rms zcr specCent specBw mfccVarN beatDensityN
        sceneScore motionScore i0 i1 =
      20/100 * meanQ (sliceQ (SlopCannon.normalize rms) i0 i1) +
      10/100 * meanQ (sliceQ (SlopCannon.normalize zcr) i0 i1) +
      10/100 * meanQ (sliceQ (SlopCannon.normalize specCent) i0 i1) +
      10/100 * meanQ (sliceQ (SlopCannon.normalize specBw) i0 i1) +
      10/100 * mfccVarN + 5/100 * beatDensityN +
      10/100 * meanQ (sliceQ (SlopCannon.normalize (rmsDiff rms)) i0 i1) +
      15/100 * sceneScore + 10/100 * motionScore +
      (if meanQ (sliceQ (SlopCannon.normalize rms) i0 i1) ≤ 2/100
        then -(2/10) else 0) := by
  simp only [windowScore]
  split_ifs with h1 h2
  · exfalso; linarith
  · ring
  · ring
  · exfalso; linarith

lemma sepTol_symm {tolMs : ℤ} {a b : ScoredWindow} (h : SepTol tolMs a b) :
    SepTol tolMs b a := by
  rcases h with h | h
  · right; omega
  · left; omega

lemma conflictB_eq_false_iff {tolMs : ℤ} {w u : ScoredWindow} :
    conflictB tolMs w u = false ↔ SepTol tolMs w u := by
  simp [conflictB, SepTol]
  omega

lemma pickClips_pairwise (tolMs : ℤ) (maxClips : ℕ) :
    ∀ (ws top : List ScoredWindow), List.Pairwise (SepTol tolMs) top →
      List.Pairwise (SepTol tolMs) (pickClips tolMs maxClips ws top) := by
  intro ws
  induction ws with
  | nil => intro top h; simpa [pickClips] using h
  | cons w ws ih =>
    intro top h
    simp only [pickClips]
    cases hov : top.any (conflictB tolMs w) with
    | true =>
      simp only [if_true]
      split
      · exact h
      · exact ih top h
    | false =>
      simp only [Bool.false_eq_true, if_false]
      have hsep : ∀ u ∈ top, SepTol tolMs u w := by
        intro u hu
        have := (List.any_eq_false.1 hov) u hu
        exact sepTol_symm (conflictB_eq_false_iff.1 (by simpa using this))
      have hpw : List.Pairwise (SepTol tolMs) (top ++ [w]) := by
        rw [List.pairwise_append]
        exact ⟨h, List.pairwise_singleton _ _, fun a ha b hb => by
          simp at hb; subst hb; exact hsep a ha⟩
      split
      · exact hpw
      · exact ih _ hpw

lemma pickClips_length (tolMs : ℤ) (maxClips : ℕ) :
    ∀ (ws top : List ScoredWindow), top.length < maxClips →
      (pickClips tolMs maxClips ws top).length ≤ maxClips := by
  intro ws
  induction ws with
  | nil => intro top h; simpa [pickClips] using le_of_lt h
  | cons w ws ih =>
    intro top h
    simp only [pickClips]
    cases hov : top.any (conflictB tolMs w) with
    | true =>
      simp only [if_true]
      split
      · exact le_of_lt h
      · exact ih top h
    | false =>
      simp only [Bool.false_eq_true, if_false]
      split
      · next hlen => simp only [List.length_append, List.length_singleton]; omega
      · next hlen =>
        apply ih
        simp only [List.length_append, List.length_singleton] at hlen ⊢
        omega

/-- C2 fails as stated: the code expands only ONE side of the comparison by
the tolerance, so two accepted windows separated by exactly
`allowed_overlap_sec` have overlapping doubly-expanded intervals: with
`tol = 2000ms`, windows `(0, 20000)` and `(22000, 42000)` are both accepted,
yet `[0-2000, 20000+2000]` and `[22000-2000, 42000+2000]` overlap on
`[20000, 22000]`.  Moreover with `max_clips = 0` the loop still accepts one
window before its stop test runs, so "at most max_clips" also fails. -/
theorem selector_counterexample :
    selectTop [((0 : ℤ), 20000, (2 : ℚ)), (22000, 42000, 1)] 5 2000 =
      [(0, 20000, 2), (22000, 42000, 1)] ∧
    (22000 : ℤ) - 2000 < 20000 + 2000 ∧ (0 : ℤ) - 2000 < 42000 + 2000 ∧
    (selectTop [((0 : ℤ), 20000, (2 : ℚ))] 0 2000).length = 1 := by
  refine ⟨?_, by decide, by decide, ?_⟩
  · unfold selectTop
    rw [show [((0 : ℤ), (20000 : ℤ), (2 : ℚ)), ((22000 : ℤ), (42000 : ℤ), (1 : ℚ))].mergeSort
          (fun a b => decide (b.2.2 ≤ a.2.2)) = [(0, 20000, 2), (22000, 42000, 1)] from by
      simp [List.mergeSort, List.merge]]
    decide
  · unfold selectTop
    rw [show [((0 : ℤ), (20000 : ℤ), (2 : ℚ))].mergeSort
          (fun a b => decide (b.2.2 ≤ a.2.2)) = [(0, 20000, 2)] from by
      simp [List.mergeSort]]
    decide

/-- C2 amended: any two windows the selector returns are separated by at
least `allowed_overlap_sec` (equivalently, the interval of ONE of them
expanded by the tolerance on both sides does not strictly overlap the other);
provided `max_clips >= 1` at most `max_clips` windows are returned; and a
candidate conflicts with the accepted set exactly when its interval expanded
by the tolerance on both sides strictly overlaps some accepted interval
(boundary touching does not conflict). -/
theorem selector_amended (windows : List ScoredWindow) (maxClips : ℕ)
    (tolMs : ℤ) (hmc : 0 < maxClips) :
    List.Pairwise (SepTol tolMs) (selectTop windows maxClips tolMs) ∧
    (selectTop windows maxClips tolMs).length ≤ maxClips ∧
    (∀ (w : ScoredWindow) (top : List ScoredWindow),
      top.any (conflictB tolMs w) = true ↔
        ∃ u ∈ top, u.1 - tolMs < w.2.1 ∧ w.1 < u.2.1 + tolMs) := by
  refine ⟨pickClips_pairwise tolMs maxClips _ [] List.Pairwise.nil,
    pickClips_length tolMs maxClips _ [] (by simpa using hmc), ?_⟩
  intro w top
  have hpt : ∀ u : ScoredWindow, conflictB tolMs w u = true ↔
      (u.1 - tolMs < w.2.1 ∧ w.1 < u.2.1 + tolMs) := by
    intro u
    simp only [conflictB, Bool.not_eq_true', Bool.or_eq_false_iff,
      decide_eq_false_iff_not, not_le, ge_iff_le]
  simp only [List.any_eq_true, hpt]

/-- Witness for `selector_amended` at the two-window run with tolerance 2s
and `max_clips = 5`. -/
theorem selector_amended_witness :
    List.Pairwise (SepTol 2000)
      (selectTop [((0 : ℤ), 20000, (2 : ℚ)), (30000, 50000, 1)] 5 2000) ∧
    (selectTop [((0 : ℤ), 20000, (2 : ℚ)), (30000, 50000, 1)] 5 2000).length ≤ 5 ∧
    (∀ (w : ScoredWindow) (top : List ScoredWindow),
      top.any (conflictB 2000 w) = true ↔
        ∃ u ∈ top, u.1 - 2000 < w.2.1 ∧ w.1 < u.2.1 + 2000) :=
  selector_amended [((0 : ℤ), 20000, (2 : ℚ)), (30000, 50000, 1)] 5 2000 (by decide)

/-- C3: for a positive stride the enumerated start times are exactly
`0, stride, 2*stride, …` restricted to `start + window_sec < duration`;
a 60-second input with `window_sec = 20` and `stride_sec = 5` yields exactly
the starts `0, 5, …, 35`; and `duration <= window_sec` yields no windows. -/
theorem window_enumeration (duration windowSec strideSec : ℚ)
    (hσ : 0 < strideSec) :
    (∀ s : ℚ, s ∈ windowStarts duration windowSec strideSec ↔
      ∃ k : ℕ, s = (k : ℚ) * strideSec ∧ s + windowSec < duration) ∧
    windowStarts 60 20 5 = [0, 5, 10, 15, 20, 25, 30, 35] ∧
    (duration ≤ windowSec → windowStarts duration windowSec strideSec = []) := by
  have hk : ∀ k : ℕ, k < numWindows duration windowSec strideSec ↔
      (k : ℚ) * strideSec + windowSec < duration := by
    intro k
    unfold numWindows
    rw [Int.lt_toNat, Int.lt_ceil]
    push_cast
    rw [lt_div_iff₀ hσ]
    constructor <;> intro h <;> linarith
  refine ⟨?_, ?_, ?_⟩
  · intro s
    constructor
    · intro hs
      simp only [windowStarts, List.mem_map, List.mem_range] at hs
      obtain ⟨k, hklt, hkeq⟩ := hs
      refine ⟨k, hkeq.symm, ?_⟩
      have := (hk k).1 hklt
      linarith
    · rintro ⟨k, hseq, hlt⟩
      simp only [windowStarts, List.mem_map, List.mem_range]
      refine ⟨k, (hk k).2 ?_, hseq.symm⟩
      rw [hseq] at hlt
      linarith
  · have h8 : numWindows 60 20 5 = 8 := by
      unfold numWindows
      norm_num
      rfl
    simp [windowStarts, h8, List.range_succ]
    norm_num
  · intro hdw
    have hle : (duration - windowSec) / strideSec ≤ ((0 : ℤ) : ℚ) := by
      push_cast
      apply div_nonpos_of_nonpos_of_nonneg
      · linarith
      · exact hσ.le
    have hc : ⌈(duration - windowSec) / strideSec⌉ ≤ 0 := Int.ceil_le.2 hle
    simp [windowStarts, numWindows, Int.toNat_of_nonpos hc]

/-- Witness for `window_enumeration` at `(duration, window_sec, stride_sec) =
(60, 20, 5)`, checking the spec's 8-start example and the degenerate case at
that stride. -/
theorem window_enumeration_witness :
    windowStarts 60 20 5 = [0, 5, 10, 15, 20, 25, 30, 35] :=
  (window_enumeration 60 20 5 (by norm_num)).2.1

lemma exportBody_ok_name (env : ExportEnv) (outputFile : String)
    (opts : ExportOpts) (p : String)
    (h : exportBody env outputFile opts = .ok p) :
    p = if opts.subtitles then subName outputFile else outputFile := by
  unfold exportBody at h
  cases h1 : env.baseCut with
  | error e => rw [h1] at h; exact absurd h (by simp)
  | ok u =>
    rw [h1] at h
    by_cases hs : opts.subtitles
    · rw [if_pos hs] at h
      rw [if_pos hs]
      cases h2 : env.audioExtract with
      | error e => rw [h2] at h; exact absurd h (by simp)
      | ok u2 =>
        rw [h2] at h
        cases h3 : env.makeSubtitles with
        | error e => rw [h3] at h; exact absurd h (by simp)
        | ok u3 =>
          rw [h3] at h
          cases h4 : env.burnIn with
          | error e => rw [h4] at h; exact absurd h (by simp)
          | ok u4 =>
            rw [h4] at h
            simpa using h.symm
    · rw [if_neg hs] at h
      rw [if_neg hs]
      simpa using h.symm

/-- C5: the export job reports through the completion callback only — the
worker's single callback invocation is either `(artifactPath, none)` on
success or `(none, error)` on any stage failure; on success the delivered
path is the final artifact (the `<stem>_sub.mp4` burn-in output exactly when
subtitles were requested); the worker is a total function of the stage
outcomes, so no failure escapes its boundary. -/
theorem export_callback_discipline (env : ExportEnv) (outputFile : String)
    (opts : ExportOpts) :
    ((∃ p, export_clip_worker env outputFile opts = (some p, none)) ∨
      (∃ e, export_clip_worker env outputFile opts = (none, some e))) ∧
    (∀ p, exportBody env outputFile opts = .ok p →
      export_clip_worker env outputFile opts = (some p, none) ∧
      p = (if opts.subtitles then subName outputFile else outputFile)) ∧
    (∀ e, exportBody env outputFile opts = .error e →
      export_clip_worker env outputFile opts = (none, some e)) := by
  refine ⟨?_, ?_, ?_⟩
  · cases hb : exportBody env outputFile opts with
    | ok p => exact Or.inl ⟨p, by simp [export_clip_worker, hb]⟩
    | error e => exact Or.inr ⟨e, by simp [export_clip_worker, hb]⟩
  · intro p hb
    exact ⟨by simp [export_clip_worker, hb],
      exportBody_ok_name env outputFile opts p hb⟩
  · intro e hb
    simp [export_clip_worker, hb]

/-- Witness for `export_callback_discipline`: all stages succeed on
`clip.mp4` with subtitles requested; the callback receives
`(clip_sub.mp4, none)`. -/
theorem export_callback_discipline_witness :
    export_clip_worker ⟨.ok (), .ok (), .ok (), .ok ()⟩ "clip.mp4"
        ⟨false, false, true⟩ = (some "clip_sub.mp4", none) ∧
    "clip_sub.mp4" =
      (if (⟨false, false, true⟩ : ExportOpts).subtitles
        then subName "clip.mp4" else "clip.mp4") :=
  (export_callback_discipline ⟨.ok (), .ok (), .ok (), .ok ()⟩ "clip.mp4"
    ⟨false, false, true⟩).2.1 "clip_sub.mp4" rfl

lemma chunkList_flatten {α : Type} (n : ℕ) (hn : 0 < n) (l : List α) :
    (chunkList n l).flatten = l := by
  suffices H : ∀ (m : ℕ) (l : List α), l.length ≤ m →
      (chunkList n l).flatten = l from H l.length l le_rfl
  intro m
  induction m with
  | zero =>
    intro l hl
    have : l = [] := List.eq_nil_of_length_eq_zero (Nat.le_zero.1 hl)
    subst this
    simp [chunkList]
  | succ m ih =>
    intro l hl
    cases l with
    | nil => simp [chunkList]
    | cons x xs =>
      rw [chunkList, if_neg hn.ne']
      rw [List.flatten_cons, ih ((x :: xs).drop n) (by
        simp only [List.length_drop, List.length_cons]
        simp only [List.length_cons] at hl
        omega)]
      exact List.take_append_drop n (x :: xs)

lemma chunkList_mem {α : Type} (n : ℕ) (hn : 0 < n) (l : List α) :
    ∀ c ∈ chunkList n l, c ≠ [] ∧ c.length ≤ n := by
  suffices H : ∀ (m : ℕ) (l : List α), l.length ≤ m →
      ∀ c ∈ chunkList n l, c ≠ [] ∧ c.length ≤ n from H l.length l le_rfl
  intro m
  induction m with
  | zero =>
    intro l hl c hc
    have : l = [] := List.eq_nil_of_length_eq_zero (Nat.le_zero.1 hl)
    subst this
    simp [chunkList] at hc
  | succ m ih =>
    intro l hl c hc
    cases l with
    | nil => simp [chunkList] at hc
    | cons x xs =>
      rw [chunkList, if_neg hn.ne'] at hc
      rcases List.mem_cons.1 hc with rfl | hc2
      · constructor
        · simp [List.take_eq_nil_iff]
          omega
        · simp [List.length_take]
      · refine ih ((x :: xs).drop n) ?_ c hc2
        simp only [List.length_drop, List.length_cons]
        simp only [List.length_cons] at hl
        omega

lemma chunkList_eq_nil_iff {α : Type} (n : ℕ) (hn : 0 < n) (l : List α) :
    chunkList n l = [] ↔ l = [] := by
  cases l with
  | nil => simp [chunkList]
  | cons x xs =>
    rw [chunkList, if_neg hn.ne']
    simp

lemma chunkList_dropLast {α : Type} (n : ℕ) (hn : 0 < n) (l : List α) :
    ∀ c ∈ (chunkList n l).dropLast, c.length = n := by
  suffices H : ∀ (m : ℕ) (l : List α), l.length ≤ m →
      ∀ c ∈ (chunkList n l).dropLast, c.length = n from H l.length l le_rfl
  intro m
  induction m with
  | zero =>
    intro l hl c hc
    have : l = [] := List.eq_nil_of_length_eq_zero (Nat.le_zero.1 hl)
    subst this
    simp [chunkList] at hc
  | succ m ih =>
    intro l hl c hc
    cases l with
    | nil => simp [chunkList] at hc
    | cons x xs =>
      rw [chunkList, if_neg hn.ne'] at hc
      cases hrest : chunkList n ((x :: xs).drop n) with
      | nil => rw [hrest] at hc; simp at hc
      | cons r rs =>
        rw [hrest, List.dropLast_cons₂] at hc
        rcases List.mem_cons.1 hc with rfl | hc2
        · have hdrop : (x :: xs).drop n ≠ [] := by
            intro hd
            rw [hd] at hrest
            simp [chunkList] at hrest
          have hlen : n < (x :: xs).length := by
            by_contra hcon
            push_neg at hcon
            exact hdrop (List.drop_eq_nil_of_le hcon)
          rw [List.length_take]
          exact min_eq_left hlen.le
        · have := ih ((x :: xs).drop n) (by
            simp only [List.length_drop, List.length_cons]
            simp only [List.length_cons] at hl
            omega)
          rw [hrest] at this
          exact this c hc2

lemma subtitle_events_span (wordsPerLine linesPerEvent : ℕ)
    (hpos : 0 < wordsPerLine * linesPerEvent) (segs : List TSegment) :
    List.Forall₂ (fun (ev : ℚ × ℚ) (c : List TWord) =>
        ∃ (hd lastw : TWord) (tl : List TWord),
          c = hd :: tl ∧ c.getLast? = some lastw ∧ ev = (hd.start, lastw.stop))
      (subtitle_events wordsPerLine linesPerEvent segs)
      (chunkList (wordsPerLine * linesPerEvent) (flatten_words segs)) := by
  unfold subtitle_events
  rw [List.forall₂_map_left_iff, List.forall₂_same]
  intro c hc
  obtain ⟨hne, _⟩ := chunkList_mem _ hpos _ c hc
  cases c with
  | nil => exact absurd rfl hne
  | cons hd tl =>
    have hlast : (hd :: tl).getLast? = some ((hd :: tl).getLast (by simp)) :=
      List.getLast?_eq_getLast _ (by simp)
    exact ⟨hd, (hd :: tl).getLast (by simp), tl, rfl, hlast, by simp [hlast]⟩

/-- C8: the subtitle generator flattens the transcript's words (synthesizing
one pseudo-word per segment that lacks word timestamps), groups them into
consecutive chunks of exactly `words_per_line * lines_per_event` words with
only the last chunk possibly shorter, and emits one event per chunk whose
displayed span is `[first_word.start, last_word.end]`. -/
theorem subtitle_chunking (wordsPerLine linesPerEvent : ℕ)
    (hpos : 0 < wordsPerLine * linesPerEvent) (segs : List TSegment) :
    (chunkList (wordsPerLine * linesPerEvent) (flatten_words segs)).flatten =
      flatten_words segs ∧
    (∀ c ∈ chunkList (wordsPerLine * linesPerEvent) (flatten_words segs),
      c ≠ [] ∧ c.length ≤ wordsPerLine * linesPerEvent) ∧
    (∀ c ∈ (chunkList (wordsPerLine * linesPerEvent) (flatten_words segs)).dropLast,
      c.length = wordsPerLine * linesPerEvent) ∧
    List.Forall₂ (fun (ev : ℚ × ℚ) (c : List TWord) =>
        ∃ (hd lastw : TWord) (tl : List TWord),
          c = hd :: tl ∧ c.getLast? = some lastw ∧ ev = (hd.start, lastw.stop))
      (subtitle_events wordsPerLine linesPerEvent segs)
      (chunkList (wordsPerLine * linesPerEvent) (flatten_words segs)) ∧
    (∀ seg : TSegment, seg.words = [] →
      flatten_words [seg] = [⟨seg.start, seg.stop, seg.text⟩]) := by
  refine ⟨chunkList_flatten _ hpos _, chunkList_mem _ hpos _,
    chunkList_dropLast _ hpos _, subtitle_events_span _ _ hpos segs, ?_⟩
  intro seg hw
  simp [flatten_words, hw]

/-- Witness for `subtitle_chunking`: `words_per_line = 1`,
`lines_per_event = 2`, one segment without word timestamps followed by one
with three timed words. -/
theorem subtitle_chunking_witness :
    (chunkList (1 * 2) (flatten_words
      [⟨0, 5, "hello there", []⟩,
       ⟨5, 9, "x", [⟨5, 6, "a"⟩, ⟨6, 7, "b"⟩, ⟨8, 9, "c"⟩]⟩])).flatten =
      flatten_words
        [⟨0, 5, "hello there", []⟩,
         ⟨5, 9, "x", [⟨5, 6, "a"⟩, ⟨6, 7, "b"⟩, ⟨8, 9, "c"⟩]⟩] ∧
    (∀ c ∈ chunkList (1 * 2) (flatten_words
      [⟨0, 5, "hello there", []⟩,
       ⟨5, 9, "x", [⟨5, 6, "a"⟩, ⟨6, 7, "b"⟩, ⟨8, 9, "c"⟩]⟩]),
      c ≠ [] ∧ c.length ≤ 1 * 2) ∧
    (∀ c ∈ (chunkList (1 * 2) (flatten_words
      [⟨0, 5, "hello there", []⟩,
       ⟨5, 9, "x", [⟨5, 6, "a"⟩, ⟨6, 7, "b"⟩, ⟨8, 9, "c"⟩]⟩])).dropLast,
      c.length = 1 * 2) ∧
    List.Forall₂ (fun (ev : ℚ × ℚ) (c : List TWord) =>
        ∃ (hd lastw : TWord) (tl : List TWord),
          c = hd :: tl ∧ c.getLast? = some lastw ∧ ev = (hd.start, lastw.stop))
      (subtitle_events 1 2
        [⟨0, 5, "hello there", []⟩,
         ⟨5, 9, "x", [⟨5, 6, "a"⟩, ⟨6, 7, "b"⟩, ⟨8, 9, "c"⟩]⟩])
      (chunkList (1 * 2) (flatten_words
        [⟨0, 5, "hello there", []⟩,
         ⟨5, 9, "x", [⟨5, 6, "a"⟩, ⟨6, 7, "b"⟩, ⟨8, 9, "c"⟩]⟩])) ∧
    (∀ seg : TSegment, seg.words = [] →
      flatten_words [seg] = [⟨seg.start, seg.stop, seg.text⟩]) :=
  subtitle_chunking 1 2 (by decide)
    [⟨0, 5, "hello there", []⟩,
     ⟨5, 9, "x", [⟨5, 6, "a"⟩, ⟨6, 7, "b"⟩, ⟨8, 9, "c"⟩]⟩]

end SlopCannon
